import Mathlib

set_option maxHeartbeats 1000000

/-
  Shallow embedding of the job-posting pipeline of `src/jobs.py`:
  the segmenter `extract_job_sections`, the consolidator `consolidate_jobs`
  and the final keyword/length filter of `main`.  Strings are modelled as
  `List Char` (ASCII); Python's `str.lower`, `str.strip`, substring tests,
  `re.split(r'[.!?]+', s)` and `re.sub(r'\W+', '', s)` are modelled by the
  character-level functions below.
-/

namespace JobsPy

/-- Convert a Lean string literal to the `List Char` representation used here. -/
def str (s : String) : List Char := s.data

/-- Python `str.lower` (ASCII). -/
def toLowerL (s : List Char) : List Char := s.map Char.toLower

/-- Python whitespace characters recognised by `str.strip`. -/
def isSpaceC (c : Char) : Bool :=
  c == ' ' || c == '\t' || c == '\n' || c == '\r' || c == '\x0b' || c == '\x0c'

/-- Python `str.strip`. -/
def trimL (s : List Char) : List Char :=
  ((s.dropWhile isSpaceC).reverse.dropWhile isSpaceC).reverse

/-- Python substring test `needle in hay`. -/
def containsSub (needle : List Char) : List Char → Bool
  | [] => needle.isEmpty
  | c :: t => needle.isPrefixOf (c :: t) || containsSub needle t

/-- Python `text.split('\n')` (keeps empty pieces, one split per newline). -/
def splitNl : List Char → List (List Char)
  | [] => [[]]
  | c :: cs =>
    if c = '\n' then [] :: splitNl cs
    else
      match splitNl cs with
      | [] => [[c]]
      | p :: ps => (c :: p) :: ps

/-- Python `sep.join(pieces)`. -/
def joinSep (sep : List Char) : List (List Char) → List Char
  | [] => []
  | [x] => x
  | x :: y :: ys => x ++ sep ++ joinSep sep (y :: ys)

/-! ## Segmenter: `extract_job_sections` (src/jobs.py lines 17-50) -/

/-- Pattern group A of `job_patterns`: known job-title keywords. -/
def patGroupA : List (List Char) :=
  [str "project manager", str "software developer", str "web developer",
   str "data analyst", str "ui/ux designer", str "quality assurance",
   str "devops engineer", str "marketing manager", str "sales manager"]

/-- Pattern group B of `job_patterns`: generic role-opening words. -/
def patGroupB : List (List Char) :=
  [str "position", str "role", str "job", str "opening", str "career", str "hiring"]

/-- Pattern group C of `job_patterns`: requirement terms (`requirements?` matches
iff the literal `requirement` occurs). -/
def patGroupC : List (List Char) :=
  [str "requirement", str "responsibilities", str "qualifications", str "experience"]

/-- Pattern group D of `job_patterns`: city/remote terms. -/
def patGroupD : List (List Char) :=
  [str "karachi", str "lahore", str "islamabad", str "remote", str "on-site"]

/-- The `job_patterns` list of the source: each regex is an alternation of
literal lowercase keywords, so `re.search(pat, line, re.I)` succeeds iff one
of the keywords occurs (case-insensitively) as a substring of the line. -/
def job_patterns : List (List (List Char)) :=
  [patGroupA, patGroupB, patGroupC, patGroupD]

/-- Case-insensitive regex search of one pattern group against a line. -/
def patSearch (pat : List (List Char)) (line : List Char) : Bool :=
  pat.any (fun kw => containsSub kw (toLowerL line))

/-- `is_job_start = any(re.search(pattern, line, re.I) for pattern in job_patterns[:2])`. -/
def is_job_start (line : List Char) : Bool :=
  (job_patterns.take 2).any (fun pat => patSearch pat line)

/-- One iteration of the line loop of `extract_job_sections`; the state is
`(sections, current_section)`. -/
def segStep (st : List (List Char) × List (List Char)) (rawLine : List Char) :
    List (List Char) × List (List Char) :=
  let line := trimL rawLine
  if line = [] then st
  else if is_job_start line && !st.2.isEmpty then
    (st.1 ++ [joinSep (str "\n") st.2], [line])
  else (st.1, st.2 ++ [line])

/-- `extract_job_sections` (src/jobs.py lines 17-50). -/
def extract_job_sections (text : List Char) : List (List Char) :=
  let st := (splitNl text).foldl segStep ([], [])
  if st.2.isEmpty then st.1 else st.1 ++ [joinSep (str "\n") st.2]

/-! ## Consolidator: `consolidate_jobs` (src/jobs.py lines 143-214) -/

/-- One labeled fragment returned by the external extractor. -/
structure Extraction where
  extraction_class : List Char
  extraction_text : List Char
deriving DecidableEq

/-- The working value of `jobs_by_title` at one key. -/
structure JobGroup where
  title : List Char
  locations : List (List Char)
  descriptions : List (List Char)
deriving DecidableEq

/-- A final consolidated posting. -/
structure Posting where
  title : List Char
  location : List Char
  description : List Char
deriving DecidableEq

/-- The `jobs_by_title` dict: an insertion-ordered association list with
(as in a Python dict) pairwise-distinct keys. -/
abbrev JState := List (List Char × JobGroup)

/-- The `skip_terms` denylist of `consolidate_jobs`. -/
def skip_terms : List (List Char) :=
  [str "business continuity", str "managed hosting", str "content marketing",
   str "brand identity", str "web design", str "canva", str "figma", str "blender"]

/-- `any(term in extraction_text.lower() for term in skip_terms)`. -/
def skipHit (txt : List Char) : Bool :=
  skip_terms.any (fun term => containsSub term (toLowerL txt))

/-- Python dict read `jobs_by_title[k]` (keys are unique in a dict, so the
first entry with the key is the entry). -/
def dictGet (jobs : JState) (k : List Char) : Option JobGroup :=
  (jobs.find? (fun e => e.1 == k)).map (fun e => e.2)

/-- Python dict write `jobs_by_title[k] = g` for an existing key. -/
def dictSet (jobs : JState) (k : List Char) (g : JobGroup) : JState :=
  jobs.map (fun e => if e.1 == k then (e.1, g) else e)

/-- Python `k in jobs_by_title`. -/
def dictHasKey (jobs : JState) (k : List Char) : Bool :=
  jobs.any (fun e => e.1 == k)

/-- Python `list(jobs_by_title.keys())`. -/
def keysOf (jobs : JState) : List (List Char) := jobs.map (fun e => e.1)

/-- One iteration of the grouping loop of `consolidate_jobs`
(src/jobs.py lines 148-180). -/
def consolidateStep (jobs : JState) (item : Extraction) : JState :=
  let extraction_class := toLowerL item.extraction_class
  let extraction_text := trimL item.extraction_text
  if skipHit extraction_text then jobs
  else if extraction_class = str "title" then
    let title_key := trimL (toLowerL extraction_text)
    if dictHasKey jobs title_key then jobs
    else jobs ++ [(title_key, ⟨extraction_text, [], []⟩)]
  else if extraction_class = str "location" then
    match (keysOf jobs).getLast? with
    | none => jobs
    | some last_title =>
      match dictGet jobs last_title with
      | none => jobs
      | some g =>
        if extraction_text ≠ [] && !(g.locations.contains extraction_text) then
          dictSet jobs last_title ⟨g.title, g.locations ++ [extraction_text], g.descriptions⟩
        else jobs
  else if extraction_class = str "description" then
    match (keysOf jobs).getLast? with
    | none => jobs
    | some last_title =>
      match dictGet jobs last_title with
      | none => jobs
      | some g =>
        dictSet jobs last_title ⟨g.title, g.locations, g.descriptions ++ [extraction_text]⟩
  else jobs

/-- Sentence-terminator characters of `re.split(r'[.!?]+', desc)`. -/
def isTermChar (c : Char) : Bool := c == '.' || c == '!' || c == '?'

/-- `re.split(r'[.!?]+', desc)`: split on maximal runs of terminator
characters, keeping empty boundary pieces. -/
def splitTermRuns : List Char → List (List Char)
  | [] => [[]]
  | c :: cs =>
    let r := splitTermRuns cs
    if isTermChar c then
      if (cs.head?.map isTermChar).getD false then r else [] :: r
    else
      match r with
      | [] => [[c]]
      | p :: ps => (c :: p) :: ps

/-- Python word character for `re.sub(r'\W+', '', s)` (ASCII). -/
def isWordChar (c : Char) : Bool := c.isAlphanum || c == '_'

/-- `sentence_key = re.sub(r'\W+', '', sentence.lower())`. -/
def sentKey (s : List Char) : List Char := (toLowerL s).filter isWordChar

/-- The body of the inner sentence loop of `consolidate_jobs`
(src/jobs.py lines 195-201); the state is `(all_descriptions, seen_content)`. -/
def addSentence (acc : List (List Char) × List (List Char)) (sentenceRaw : List Char) :
    List (List Char) × List (List Char) :=
  let sentence := trimL sentenceRaw
  if 10 < sentence.length then
    let sentence_key := sentKey sentence
    if acc.2.contains sentence_key then acc
    else (acc.1 ++ [sentence], acc.2 ++ [sentence_key])
  else acc

/-- The sentence-collection loops of `consolidate_jobs` (lines 189-201),
returning `all_descriptions`. -/
def collectSentences (descriptions : List (List Char)) : List (List Char) :=
  (descriptions.foldl (fun acc desc => (splitTermRuns desc).foldl addSentence acc) ([], [])).1

/-- Per-group consolidation (src/jobs.py lines 184-212). -/
def consolidateGroup (g : JobGroup) : Posting :=
  let location := match g.locations with
    | [] => str "None"
    | l :: _ => l
  let all_descriptions := collectSentences g.descriptions
  let combined := joinSep (str ". ") all_descriptions
  let combined2 :=
    if combined ≠ [] && !(combined.getLast? == some '.') then combined ++ ['.']
    else combined
  ⟨g.title, location, combined2⟩

/-- `consolidate_jobs` (src/jobs.py lines 143-214). -/
def consolidate_jobs (extractions : List Extraction) : List Posting :=
  ((extractions.foldl consolidateStep []).map (fun e => consolidateGroup e.2))

/-! ## Filter (src/jobs.py lines 240-249) -/

/-- The fixed role-keyword list of `main`. -/
def job_title_keywords : List (List Char) :=
  [str "manager", str "developer", str "engineer", str "analyst", str "designer",
   str "coordinator", str "specialist", str "lead", str "senior", str "junior",
   str "intern"]

/-- The final filtering loop of `main` (src/jobs.py lines 240-249). -/
def filter_jobs (jobs : List Posting) : List Posting :=
  jobs.foldl
    (fun filtered job =>
      if job_title_keywords.any (fun kw => containsSub kw (toLowerL job.title)) then
        if 50 < job.description.length then filtered ++ [job] else filtered
      else filtered)
    []

/-! ## Specification-side description merge (the words of the spec / claim C1) -/

/-- Keep only the first occurrence of each `sentKey` value, in first-seen order. -/
def dedupByKey (seen : List (List Char)) : List (List Char) → List (List Char)
  | [] => []
  | s :: rest =>
    if seen.contains (sentKey s) then dedupByKey seen rest
    else s :: dedupByKey (seen ++ [sentKey s]) rest

/-- The set of keys seen after scanning a list of sentences. -/
def seenAfter (seen : List (List Char)) : List (List Char) → List (List Char)
  | [] => seen
  | s :: rest =>
    if seen.contains (sentKey s) then seenAfter seen rest
    else seenAfter (seen ++ [sentKey s]) rest

/-- The merged description as the spec words it: split every collected
description string on runs of `.`, `!`, `?`, trim each piece, discard pieces
of trimmed length at most 10, keep the first occurrence of each dedup key
across all pieces of the group in first-seen order, join with `". "`, and
append a final `'.'` exactly when the join is non-empty and does not already
end with a period. -/
def mergedDescriptionSpec (descriptions : List (List Char)) : List Char :=
  let pieces := (descriptions.map splitTermRuns).flatten
  let survivors := dedupByKey [] ((pieces.map trimL).filter (fun s => 10 < s.length))
  let joined := joinSep (str ". ") survivors
  if joined ≠ [] && !(joined.getLast? == some '.') then joined ++ ['.'] else joined

/-- Invariant of `jobs_by_title`: keys are pairwise distinct (a dict), every
entry's key is the normalisation of its recorded title, and every recorded
title passed the denylist. -/
def goodState (jobs : JState) : Prop :=
  (keysOf jobs).Nodup
    ∧ ∀ e ∈ jobs, trimL (toLowerL e.2.title) = e.1 ∧ skipHit e.2.title = false

/-- The recorded title at a key. -/
def titleAt (jobs : JState) (k : List Char) : Option (List Char) :=
  (dictGet jobs k).map (fun g => g.title)

/-! ## Equivalence of the source's nested dedup fold with the spec pipeline -/

theorem foldl_addSentence (pieces : List (List Char)) :
    ∀ acc : List (List Char) × List (List Char),
      pieces.foldl addSentence acc =
        (acc.1 ++ dedupByKey acc.2 ((pieces.map trimL).filter (fun s => 10 < s.length)),
         seenAfter acc.2 ((pieces.map trimL).filter (fun s => 10 < s.length))) := by
  induction pieces with
  | nil => intro acc; simp [dedupByKey, seenAfter]
  | cons p rest ih =>
    intro acc
    simp only [List.foldl_cons, List.map_cons, List.filter_cons]
    by_cases h : 10 < (trimL p).length
    · by_cases h2 : sentKey (trimL p) ∈ acc.2
      · have hstep : addSentence acc p = acc := by
          simp [addSentence, h, h2]
        rw [hstep, ih acc]
        simp [h, dedupByKey, seenAfter, h2]
      · have hstep : addSentence acc p =
            (acc.1 ++ [trimL p], acc.2 ++ [sentKey (trimL p)]) := by
          simp [addSentence, h, h2]
        rw [hstep, ih]
        simp [h, dedupByKey, seenAfter, h2, List.append_assoc]
    · have hstep : addSentence acc p = acc := by
        simp [addSentence, h]
      rw [hstep, ih acc]
      simp [h]

theorem foldl_addSentence_join (descriptions : List (List Char)) :
    ∀ acc : List (List Char) × List (List Char),
      descriptions.foldl (fun acc desc => (splitTermRuns desc).foldl addSentence acc) acc =
        ((descriptions.map splitTermRuns).flatten).foldl addSentence acc := by
  induction descriptions with
  | nil => intro acc; simp
  | cons d rest ih =>
    intro acc
    simp only [List.foldl_cons, List.map_cons, List.flatten_cons, List.foldl_append]
    exact ih _

theorem collectSentences_eq (descriptions : List (List Char)) :
    collectSentences descriptions =
      dedupByKey []
        (((((descriptions.map splitTermRuns).flatten).map trimL)).filter
          (fun s => 10 < s.length)) := by
  unfold collectSentences
  rw [foldl_addSentence_join, foldl_addSentence]
  simp

/-- C1: for every JobGroup, the consolidator builds the merged description by
splitting each collected description string on runs of `.`, `!`, `?`, trimming
each piece, discarding pieces of trimmed length at most 10, deduplicating by
the key obtained by dropping non-word characters and lowercasing, keeping only
the first occurrence of each key across all description strings of the group in
first-seen order, joining the survivors with `". "`, and appending a final
period exactly when the join is non-empty and does not already end with one. -/
theorem merged_description_correct (g : JobGroup) :
    (consolidateGroup g).description = mergedDescriptionSpec g.descriptions := by
  simp only [consolidateGroup, mergedDescriptionSpec, collectSentences_eq]

/-! ## Character-level facts about the split/merge, for claim C10 -/

theorem mem_splitTermRuns_not_term (l : List Char) :
    ∀ p ∈ splitTermRuns l, ∀ c ∈ p, isTermChar c = false := by
  induction l with
  | nil =>
    intro p hp c hc
    simp only [splitTermRuns, List.mem_singleton] at hp
    subst hp
    simp at hc
  | cons a cs ih =>
    intro p hp c hc
    simp only [splitTermRuns] at hp
    by_cases ha : isTermChar a
    · rw [if_pos ha] at hp
      by_cases hh : (cs.head?.map isTermChar).getD false
      · rw [if_pos hh] at hp
        exact ih p hp c hc
      · rw [if_neg hh] at hp
        rcases List.mem_cons.1 hp with h1 | h1
        · subst h1; simp at hc
        · exact ih p h1 c hc
    · rw [if_neg ha] at hp
      rcases hr : splitTermRuns cs with _ | ⟨q, qs⟩
      · rw [hr] at hp
        simp only [List.mem_singleton] at hp
        subst hp
        rcases List.mem_singleton.1 hc with rfl
        simpa using ha
      · rw [hr] at hp
        rcases List.mem_cons.1 hp with h1 | h1
        · subst h1
          rcases List.mem_cons.1 hc with rfl | h2
          · simpa using ha
          · exact ih q (by rw [hr]; exact List.mem_cons_self q qs) c h2
        · exact ih p (by rw [hr]; exact List.mem_cons_of_mem q h1) c hc

theorem mem_trimL (c : Char) (s : List Char) (h : c ∈ trimL s) : c ∈ s := by
  unfold trimL at h
  rw [List.mem_reverse] at h
  have h1 := (List.dropWhile_sublist (l := (s.dropWhile isSpaceC).reverse)
    (p := isSpaceC)).subset h
  rw [List.mem_reverse] at h1
  exact (List.dropWhile_sublist (l := s) (p := isSpaceC)).subset h1

theorem dedupByKey_subset :
    ∀ (l : List (List Char)) (seen : List (List Char)) (s : List Char),
      s ∈ dedupByKey seen l → s ∈ l := by
  intro l
  induction l with
  | nil => intro seen s h; simp [dedupByKey] at h
  | cons x xs ih =>
    intro seen s h
    simp only [dedupByKey] at h
    by_cases hx : seen.contains (sentKey x) = true
    · rw [if_pos hx] at h
      exact List.mem_cons_of_mem x (ih seen s h)
    · rw [if_neg hx] at h
      rcases List.mem_cons.1 h with h1 | h1
      · exact List.mem_cons.2 (Or.inl h1)
      · exact List.mem_cons_of_mem x (ih _ s h1)

theorem mem_joinSep (sep : List Char) :
    ∀ (L : List (List Char)) (c : Char), c ∈ joinSep sep L →
      c ∈ sep ∨ ∃ x ∈ L, c ∈ x := by
  intro L
  induction L with
  | nil => intro c h; simp [joinSep] at h
  | cons x xs ih =>
    intro c h
    cases xs with
    | nil =>
      right
      exact ⟨x, List.mem_cons_self x [], by simpa [joinSep] using h⟩
    | cons y ys =>
      simp only [joinSep, List.append_assoc, List.mem_append] at h
      rcases h with h1 | h1 | h1
      · exact Or.inr ⟨x, List.mem_cons_self x (y :: ys), h1⟩
      · exact Or.inl h1
      · rcases ih c h1 with h2 | ⟨z, hz, hcz⟩
        · exact Or.inl h2
        · exact Or.inr ⟨z, List.mem_cons_of_mem x hz, hcz⟩

theorem consolidateGroup_description_prop (g : JobGroup) :
    ((consolidateGroup g).description = []
      ∨ (consolidateGroup g).description.getLast? = some '.')
    ∧ '!' ∉ (consolidateGroup g).description
    ∧ '?' ∉ (consolidateGroup g).description := by
  have hdesc : (consolidateGroup g).description =
      (let combined := joinSep (str ". ") (collectSentences g.descriptions)
       if combined ≠ [] && !(combined.getLast? == some '.') then combined ++ ['.']
       else combined) := rfl
  have hmem : ∀ c ∈ joinSep (str ". ") (collectSentences g.descriptions),
      c ≠ '!' ∧ c ≠ '?' := by
    intro c hc
    rcases mem_joinSep _ _ c hc with h1 | ⟨s, hs, hcs⟩
    · constructor <;> (intro h; subst h; simp [str] at h1)
    · rw [collectSentences_eq] at hs
      have hs2 := dedupByKey_subset _ _ _ hs
      rcases List.mem_filter.1 hs2 with ⟨hs3, -⟩
      rcases List.mem_map.1 hs3 with ⟨piece, hpiece, rfl⟩
      rcases List.mem_flatten.1 hpiece with ⟨pl, hpl, hppl⟩
      rcases List.mem_map.1 hpl with ⟨d, -, rfl⟩
      have := mem_splitTermRuns_not_term d piece hppl c (mem_trimL c piece hcs)
      constructor <;> (intro h; subst h; simp [isTermChar] at this)
  by_cases hne : joinSep (str ". ") (collectSentences g.descriptions) = []
  · have hd : (consolidateGroup g).description = [] := by
      rw [hdesc]; simp [hne]
    rw [hd]
    simp
  · by_cases hdot :
        (joinSep (str ". ") (collectSentences g.descriptions)).getLast? = some '.'
    · have hd : (consolidateGroup g).description =
          joinSep (str ". ") (collectSentences g.descriptions) := by
        rw [hdesc]; simp [hdot]
      rw [hd]
      refine ⟨Or.inr hdot, ?_, ?_⟩
      · intro h; exact (hmem _ h).1 rfl
      · intro h; exact (hmem _ h).2 rfl
    · have hd : (consolidateGroup g).description =
          joinSep (str ". ") (collectSentences g.descriptions) ++ ['.'] := by
        rw [hdesc]
        simp [hne, hdot]
      rw [hd]
      refine ⟨Or.inr (by simp [List.getLast?_concat]), ?_, ?_⟩
      · intro h
        rcases List.mem_append.1 h with h1 | h1
        · exact (hmem _ h1).1 rfl
        · simp at h1
      · intro h
        rcases List.mem_append.1 h with h1 | h1
        · exact (hmem _ h1).2 rfl
        · simp at h1

/-- C10: every posting emitted by the consolidator has a description that is
either empty or ends with a period, and the description never contains the
characters `!` or `?` (sentence terminators are removed by the split and the
survivors are rejoined with `". "` plus a final appended period). -/
theorem description_terminator_invariant (extractions : List Extraction) (p : Posting)
    (hp : p ∈ consolidate_jobs extractions) :
    (p.description = [] ∨ p.description.getLast? = some '.')
    ∧ '!' ∉ p.description ∧ '?' ∉ p.description := by
  unfold consolidate_jobs at hp
  rcases List.mem_map.1 hp with ⟨e, -, rfl⟩
  exact consolidateGroup_description_prop e.2

/-- Witness for `description_terminator_invariant` at a concrete input. -/
theorem description_terminator_invariant_witness :
    ((⟨str "Engineer Role", str "None", str "Writes Lean proofs daily."⟩ :
        Posting).description = []
      ∨ (⟨str "Engineer Role", str "None", str "Writes Lean proofs daily."⟩ :
        Posting).description.getLast? = some '.')
    ∧ '!' ∉ (⟨str "Engineer Role", str "None", str "Writes Lean proofs daily."⟩ :
        Posting).description
    ∧ '?' ∉ (⟨str "Engineer Role", str "None", str "Writes Lean proofs daily."⟩ :
        Posting).description :=
  description_terminator_invariant
    [⟨str "title", str "Engineer Role"⟩, ⟨str "description", str "Writes Lean proofs daily"⟩]
    ⟨str "Engineer Role", str "None", str "Writes Lean proofs daily."⟩ (by decide)

/-! ## Dictionary lemmas for the `jobs_by_title` state -/

theorem dictHasKey_iff (jobs : JState) (k : List Char) :
    dictHasKey jobs k = true ↔ k ∈ keysOf jobs := by
  unfold dictHasKey keysOf
  rw [List.any_eq_true]
  constructor
  · rintro ⟨e, he, hbe⟩
    exact List.mem_map.2 ⟨e, he, beq_iff_eq.1 hbe⟩
  · intro hm
    rcases List.mem_map.1 hm with ⟨e, he, rfl⟩
    exact ⟨e, he, beq_self_eq_true e.1⟩

theorem keysOf_getLast? (jobs : JState) :
    (keysOf jobs).getLast? = jobs.getLast?.map (fun e => e.1) := by
  simp [keysOf, List.getLast?_map]

theorem mem_of_getLast? : ∀ {l : JState} {a : List Char × JobGroup},
    l.getLast? = some a → a ∈ l := by
  intro l
  induction l with
  | nil => intro a h; cases h
  | cons e rest ih =>
    intro a h
    cases rest with
    | nil =>
      have h1 : some e = some a := by rw [← List.getLast?_singleton e]; exact h
      exact (Option.some.inj h1) ▸ List.mem_singleton_self e
    | cons e2 rest2 =>
      rw [List.getLast?_cons_cons] at h
      exact List.mem_cons_of_mem e (ih h)

theorem dictGet_last :
    ∀ (jobs : JState) (k : List Char) (g : JobGroup),
      (keysOf jobs).Nodup → jobs.getLast? = some (k, g) → dictGet jobs k = some g := by
  intro jobs
  induction jobs with
  | nil => intro k g _ h; simp at h
  | cons e rest ih =>
    intro k g hnd hlast
    cases rest with
    | nil =>
      have he : e = (k, g) := by
        have h1 : some e = some (k, g) := by
          rw [← List.getLast?_singleton e]; exact hlast
        exact Option.some.inj h1
      subst he
      simp [dictGet]
    | cons e2 rest2 =>
      have hlast2 : (e2 :: rest2).getLast? = some (k, g) := by
        rw [← List.getLast?_cons_cons (a := e)]; exact hlast
      have hk : k ∈ keysOf (e2 :: rest2) :=
        List.mem_map.2 ⟨(k, g), mem_of_getLast? hlast2, rfl⟩
      have hnd2 : (e.1 :: keysOf (e2 :: rest2)).Nodup := hnd
      have hne : ¬(e.1 == k) = true := by
        intro hc
        exact (List.nodup_cons.1 hnd2).1 ((beq_iff_eq.1 hc) ▸ hk)
      unfold dictGet
      rw [List.find?_cons_of_neg (p := fun e => e.1 == k) (e2 :: rest2) hne]
      exact ih k g hnd2.of_cons hlast2

theorem dictSet_last :
    ∀ (jobs : JState) (k : List Char) (g g2 : JobGroup),
      (keysOf jobs).Nodup → jobs.getLast? = some (k, g) →
      dictSet jobs k g2 = jobs.dropLast ++ [(k, g2)] := by
  intro jobs
  induction jobs with
  | nil => intro k g g2 _ h; simp at h
  | cons e rest ih =>
    intro k g g2 hnd hlast
    cases rest with
    | nil =>
      have he : e = (k, g) := by
        have h1 : some e = some (k, g) := by
          rw [← List.getLast?_singleton e]; exact hlast
        exact Option.some.inj h1
      subst he
      simp [dictSet]
    | cons e2 rest2 =>
      have hlast2 : (e2 :: rest2).getLast? = some (k, g) := by
        rw [← List.getLast?_cons_cons (a := e)]; exact hlast
      have hk : k ∈ keysOf (e2 :: rest2) :=
        List.mem_map.2 ⟨(k, g), mem_of_getLast? hlast2, rfl⟩
      have hnd2 : (e.1 :: keysOf (e2 :: rest2)).Nodup := hnd
      have hne : ¬(e.1 == k) = true := by
        intro hc
        exact (List.nodup_cons.1 hnd2).1 ((beq_iff_eq.1 hc) ▸ hk)
      show (if (e.1 == k) = true then (e.1, g2) else e) :: dictSet (e2 :: rest2) k g2 = _
      rw [if_neg hne, ih k g g2 hnd2.of_cons hlast2]
      rfl

theorem keysOf_dictSet (jobs : JState) (k : List Char) (g : JobGroup) :
    keysOf (dictSet jobs k g) = keysOf jobs := by
  unfold keysOf dictSet
  rw [List.map_map]
  apply List.map_congr_left
  intro e _
  show (if (e.1 == k) = true then (e.1, g) else e).1 = e.1
  by_cases hc : (e.1 == k) = true
  · rw [if_pos hc]
  · rw [if_neg hc]

theorem dictGet_mem (jobs : JState) (k : List Char) (g : JobGroup)
    (h : dictGet jobs k = some g) : ∃ e ∈ jobs, e.1 = k ∧ e.2 = g := by
  unfold dictGet at h
  rcases ho : jobs.find? (fun e => e.1 == k) with _ | e
  · rw [ho] at h; exact absurd h (by simp)
  · rw [ho] at h
    have hp : (e.1 == k) = true := List.find?_some (p := fun e : List Char × JobGroup => e.1 == k) ho
    exact ⟨e, List.mem_of_find?_eq_some ho, beq_iff_eq.1 hp, Option.some.inj h⟩

/-! ## Case analysis of one consolidation step -/

theorem consolidateStep_cases (jobs : JState) (f : Extraction) :
    consolidateStep jobs f = jobs
    ∨ (skipHit (trimL f.extraction_text) = false
        ∧ dictHasKey jobs (trimL (toLowerL (trimL f.extraction_text))) = false
        ∧ consolidateStep jobs f =
            jobs ++ [(trimL (toLowerL (trimL f.extraction_text)),
              ⟨trimL f.extraction_text, [], []⟩)])
    ∨ (∃ k g g2, dictGet jobs k = some g ∧ (keysOf jobs).getLast? = some k
        ∧ g2.title = g.title
        ∧ consolidateStep jobs f = dictSet jobs k g2) := by
  unfold consolidateStep
  by_cases h1 : skipHit (trimL f.extraction_text) = true
  · rw [if_pos h1]; exact Or.inl rfl
  rw [if_neg h1]
  by_cases h2 : toLowerL f.extraction_class = str "title"
  · rw [if_pos h2]
    by_cases h3 : dictHasKey jobs (trimL (toLowerL (trimL f.extraction_text))) = true
    · rw [if_pos h3]; exact Or.inl rfl
    · rw [if_neg h3]
      exact Or.inr (Or.inl ⟨Bool.not_eq_true _ ▸ h1, Bool.not_eq_true _ ▸ h3, rfl⟩)
  rw [if_neg h2]
  by_cases h4 : toLowerL f.extraction_class = str "location"
  · rw [if_pos h4]
    rcases hlast : (keysOf jobs).getLast? with _ | k
    · exact Or.inl rfl
    dsimp only
    rcases hget : dictGet jobs k with _ | g
    · exact Or.inl rfl
    dsimp only
    by_cases h5 : (trimL f.extraction_text ≠ []
        && !(g.locations.contains (trimL f.extraction_text))) = true
    · rw [if_pos h5]
      exact Or.inr (Or.inr ⟨k, g,
        ⟨g.title, g.locations ++ [trimL f.extraction_text], g.descriptions⟩,
        hget, rfl, rfl, rfl⟩)
    · rw [if_neg h5]; exact Or.inl rfl
  rw [if_neg h4]
  by_cases h6 : toLowerL f.extraction_class = str "description"
  · rw [if_pos h6]
    rcases hlast : (keysOf jobs).getLast? with _ | k
    · exact Or.inl rfl
    dsimp only
    rcases hget : dictGet jobs k with _ | g
    · exact Or.inl rfl
    dsimp only
    exact Or.inr (Or.inr ⟨k, g,
      ⟨g.title, g.locations, g.descriptions ++ [trimL f.extraction_text]⟩,
      hget, rfl, rfl, rfl⟩)
  · rw [if_neg h6]; exact Or.inl rfl

/-! ## State invariant of the grouping loop -/

theorem keysOf_append (jobs : JState) (e : List Char × JobGroup) :
    keysOf (jobs ++ [e]) = keysOf jobs ++ [e.1] := by
  simp [keysOf]

theorem goodState_nil : goodState [] :=
  ⟨List.nodup_nil, by intro e he; cases he⟩

theorem goodState_step (jobs : JState) (f : Extraction) (hg : goodState jobs) :
    goodState (consolidateStep jobs f) := by
  rcases consolidateStep_cases jobs f with h | ⟨hpass, hnew, h⟩ |
    ⟨k, g, g2, hget, hlast, htitle, h⟩
  · rwa [h]
  · rw [h]
    constructor
    · rw [keysOf_append, List.nodup_append]
      refine ⟨hg.1, List.nodup_singleton _, ?_⟩
      rw [List.disjoint_singleton]
      intro hm
      rw [← dictHasKey_iff, hnew] at hm
      cases hm
    · intro e he
      rcases List.mem_append.1 he with he1 | he1
      · exact hg.2 e he1
      · rw [List.mem_singleton.1 he1]
        exact ⟨rfl, hpass⟩
  · rw [h]
    rcases dictGet_mem jobs k g hget with ⟨e0, he0, he0k, he0g⟩
    have ht0 := hg.2 e0 he0
    constructor
    · rw [keysOf_dictSet]; exact hg.1
    · intro e he
      unfold dictSet at he
      rcases List.mem_map.1 he with ⟨e1, he1, rfl⟩
      by_cases hc : (e1.1 == k) = true
      · rw [if_pos hc]
        have hgt : trimL (toLowerL g2.title) = k := by
          rw [htitle, ← he0g, ht0.1, he0k]
        refine ⟨?_, ?_⟩
        · show trimL (toLowerL g2.title) = e1.1
          rw [hgt, beq_iff_eq.1 hc]
        · show skipHit g2.title = false
          rw [htitle, ← he0g]
          exact ht0.2
      · rw [if_neg hc]
        exact hg.2 e1 he1

theorem goodState_foldl :
    ∀ (l : List Extraction) (jobs : JState),
      goodState jobs → goodState (l.foldl consolidateStep jobs) := by
  intro l
  induction l with
  | nil => intro jobs hg; exact hg
  | cons f rest ih => intro jobs hg; exact ih _ (goodState_step jobs f hg)

theorem mem_keys_step (jobs : JState) (f : Extraction) (k : List Char)
    (h : k ∈ keysOf jobs) : k ∈ keysOf (consolidateStep jobs f) := by
  rcases consolidateStep_cases jobs f with h1 | ⟨-, -, h1⟩ | ⟨k0, g0, g2, -, -, -, h1⟩
  · rwa [h1]
  · rw [h1, keysOf_append]
    exact List.mem_append_left _ h
  · rwa [h1, keysOf_dictSet]

theorem mem_keys_foldl :
    ∀ (l : List Extraction) (jobs : JState) (k : List Char),
      k ∈ keysOf jobs → k ∈ keysOf (l.foldl consolidateStep jobs) := by
  intro l
  induction l with
  | nil => intro jobs k h; exact h
  | cons f rest ih => intro jobs k h; exact ih _ k (mem_keys_step jobs f k h)

theorem dictGet_isSome_iff (jobs : JState) (k : List Char) :
    (dictGet jobs k).isSome = true ↔ k ∈ keysOf jobs := by
  unfold dictGet
  constructor
  · intro hs
    rcases ho : jobs.find? (fun e => e.1 == k) with _ | e
    · rw [ho] at hs; simp at hs
    · have hp : (e.1 == k) = true :=
        List.find?_some (p := fun e : List Char × JobGroup => e.1 == k) ho
      exact List.mem_map.2 ⟨e, List.mem_of_find?_eq_some ho, beq_iff_eq.1 hp⟩
  · intro hm
    rcases List.mem_map.1 hm with ⟨e, he, rfl⟩
    have h2 : (jobs.find? (fun x => x.1 == e.1)).isSome = true :=
      List.find?_isSome.2 ⟨e, he, beq_self_eq_true e.1⟩
    rcases ho : jobs.find? (fun x => x.1 == e.1) with _ | e2
    · rw [ho] at h2; simp at h2
    · rw [ho]; rfl

theorem titleAt_step (jobs : JState) (f : Extraction) (k : List Char)
    (h : k ∈ keysOf jobs) : titleAt (consolidateStep jobs f) k = titleAt jobs k := by
  rcases consolidateStep_cases jobs f with h1 | ⟨-, -, h1⟩ |
    ⟨k0, g0, g2, hget, hlast, htitle, h1⟩
  · rw [h1]
  · rw [h1]
    unfold titleAt dictGet
    rw [List.find?_append]
    rcases ho : jobs.find? (fun e => e.1 == k) with _ | e
    · exfalso
      have hs := (dictGet_isSome_iff jobs k).2 h
      unfold dictGet at hs
      rw [ho] at hs
      simp at hs
    · rw [ho, Option.or_some]
  · rw [h1]
    unfold titleAt dictGet dictSet
    rw [List.find?_map]
    have hpred : ((fun e : List Char × JobGroup => e.1 == k) ∘
        (fun e : List Char × JobGroup => if (e.1 == k0) = true then (e.1, g2) else e)) =
        (fun e : List Char × JobGroup => e.1 == k) := by
      funext e
      dsimp [Function.comp]
      by_cases hc : (e.1 == k0) = true
      · rw [if_pos hc]
      · rw [if_neg hc]
    rw [hpred]
    rcases ho : jobs.find? (fun e => e.1 == k) with _ | e
    · rw [ho]; rfl
    · rw [ho]
      by_cases hc : (e.1 == k0) = true
      · have hk : e.1 = k :=
          beq_iff_eq.1 (List.find?_some (p := fun e : List Char × JobGroup => e.1 == k) ho)
        have hkk0 : k = k0 := by rw [← hk]; exact beq_iff_eq.1 hc
        have hgk : dictGet jobs k = some g0 := by rw [hkk0]; exact hget
        unfold dictGet at hgk
        rw [ho] at hgk
        have he2 : e.2 = g0 := Option.some.inj hgk
        show some (if (e.1 == k0) = true then (e.1, g2) else e).2.title = some e.2.title
        rw [if_pos hc]
        show some g2.title = some e.2.title
        rw [he2, htitle]
      · show some (if (e.1 == k0) = true then (e.1, g2) else e).2.title = some e.2.title
        rw [if_neg hc]

theorem titleAt_foldl :
    ∀ (l : List Extraction) (jobs : JState) (k : List Char),
      k ∈ keysOf jobs → titleAt (l.foldl consolidateStep jobs) k = titleAt jobs k := by
  intro l
  induction l with
  | nil => intro jobs k _; rfl
  | cons f rest ih =>
    intro jobs k h
    rw [List.foldl_cons, ih _ k (mem_keys_step jobs f k h)]
    exact titleAt_step jobs f k h

theorem consolidateStep_skip (jobs : JState) (f : Extraction)
    (h : skipHit (trimL f.extraction_text) = true) : consolidateStep jobs f = jobs := by
  unfold consolidateStep
  rw [if_pos h]

/-- Step-level characterisation of the location and description branches,
for a dict state with distinct keys. -/
theorem consolidateStep_attach (jobs : JState) (f : Extraction) (k : List Char) (g : JobGroup)
    (hnd : (keysOf jobs).Nodup)
    (hlast : jobs.getLast? = some (k, g))
    (hpass : skipHit (trimL f.extraction_text) = false) :
    (toLowerL f.extraction_class = str "location" →
      consolidateStep jobs f =
        jobs.dropLast ++ [(k,
          ⟨g.title,
            if trimL f.extraction_text ≠ [] ∧ trimL f.extraction_text ∉ g.locations
            then g.locations ++ [trimL f.extraction_text]
            else g.locations,
            g.descriptions⟩)])
    ∧ (toLowerL f.extraction_class = str "description" →
      consolidateStep jobs f =
        jobs.dropLast ++ [(k, ⟨g.title, g.locations,
          g.descriptions ++ [trimL f.extraction_text]⟩)]) := by
  have hsk : ¬(skipHit (trimL f.extraction_text) = true) := by
    rw [hpass]; exact Bool.false_ne_true
  have hklast : (keysOf jobs).getLast? = some k := by
    rw [keysOf_getLast?, hlast]; rfl
  have hget : dictGet jobs k = some g := dictGet_last jobs k g hnd hlast
  have hset : ∀ g2, dictSet jobs k g2 = jobs.dropLast ++ [(k, g2)] := fun g2 =>
    dictSet_last jobs k g g2 hnd hlast
  have hjobs : jobs = jobs.dropLast ++ [(k, g)] :=
    (List.dropLast_append_getLast? (k, g) (by rw [hlast]; rfl)).symm
  constructor
  · intro hcls
    have hnt : toLowerL f.extraction_class ≠ str "title" := by rw [hcls]; decide
    unfold consolidateStep
    rw [if_neg hsk, if_neg hnt, if_pos hcls, hklast]
    dsimp only
    rw [hget]
    dsimp only
    by_cases hcb : (decide (trimL f.extraction_text ≠ [])
        && !(g.locations.contains (trimL f.extraction_text))) = true
    · rw [if_pos hcb, hset,
        if_pos (show trimL f.extraction_text ≠ [] ∧ trimL f.extraction_text ∉ g.locations by
          simpa using hcb)]
    · rw [if_neg hcb,
        if_neg (show ¬(trimL f.extraction_text ≠ [] ∧ trimL f.extraction_text ∉ g.locations) by
          intro hp
          exact hcb (by simp [hp.1, hp.2]))]
      exact hjobs
  · intro hcls
    have hnt : toLowerL f.extraction_class ≠ str "title" := by rw [hcls]; decide
    have hnl : toLowerL f.extraction_class ≠ str "location" := by rw [hcls]; decide
    unfold consolidateStep
    rw [if_neg hsk, if_neg hnt, if_neg hnl, if_pos hcls, hklast]
    dsimp only
    rw [hget]
    dsimp only
    exact hset _

/-- C3: for every fragment sequence, a location or description fragment that
passes the denylist and arrives when at least one JobGroup exists is attached
to the JobGroup of the last-inserted title key; a location text is appended to
that group's locations exactly when it is non-empty and not already present
(in particular only if not already present). -/
theorem attach_last_inserted (pre : List Extraction) (f : Extraction)
    (k : List Char) (g : JobGroup)
    (hlast : (pre.foldl consolidateStep []).getLast? = some (k, g))
    (hpass : skipHit (trimL f.extraction_text) = false) :
    (toLowerL f.extraction_class = str "location" →
      consolidateStep (pre.foldl consolidateStep []) f =
        (pre.foldl consolidateStep []).dropLast ++ [(k,
          ⟨g.title,
            if trimL f.extraction_text ≠ [] ∧ trimL f.extraction_text ∉ g.locations
            then g.locations ++ [trimL f.extraction_text]
            else g.locations,
            g.descriptions⟩)])
    ∧ (toLowerL f.extraction_class = str "description" →
      consolidateStep (pre.foldl consolidateStep []) f =
        (pre.foldl consolidateStep []).dropLast ++ [(k, ⟨g.title, g.locations,
          g.descriptions ++ [trimL f.extraction_text]⟩)]) :=
  consolidateStep_attach (pre.foldl consolidateStep []) f k g
    (goodState_foldl pre [] goodState_nil).1 hlast hpass

/-- Witness for `attach_last_inserted` at a concrete fragment sequence. -/
theorem attach_last_inserted_witness :
    consolidateStep ([⟨str "title", str "Dev"⟩].foldl consolidateStep [])
        ⟨str "location", str "Lahore"⟩ =
      ([⟨str "title", str "Dev"⟩].foldl consolidateStep []).dropLast ++
        [(str "dev",
          ⟨str "Dev",
            if trimL (str "Lahore") ≠ [] ∧ trimL (str "Lahore") ∉ ([] : List (List Char))
            then [] ++ [trimL (str "Lahore")]
            else [],
            []⟩)] :=
  (attach_last_inserted [⟨str "title", str "Dev"⟩] ⟨str "location", str "Lahore"⟩
    (str "dev") ⟨str "Dev", [], []⟩ (by decide) (by decide)).1 (by decide)

/-- Step-level form: consolidation of a location or description fragment only
ever modifies the last entry of the dict state. -/
theorem consolidateStep_last_only (jobs : JState) (f : Extraction)
    (hnd : (keysOf jobs).Nodup) (hne : jobs ≠ [])
    (hcls : toLowerL f.extraction_class = str "location"
      ∨ toLowerL f.extraction_class = str "description") :
    (consolidateStep jobs f).dropLast = jobs.dropLast
    ∧ keysOf (consolidateStep jobs f) = keysOf jobs
    ∧ (toLowerL f.extraction_class = str "description" →
        skipHit (trimL f.extraction_text) = false →
        (consolidateStep jobs f).getLast?.map (fun e => e.2.descriptions) =
          jobs.getLast?.map (fun e => e.2.descriptions ++ [trimL f.extraction_text])) := by
  rcases he : jobs.getLast? with _ | e0
  · exfalso
    have hs := (List.getLast?_isSome (l := jobs)).2 hne
    rw [he] at hs
    cases hs
  rcases e0 with ⟨k, g⟩
  have hjobs : jobs = jobs.dropLast ++ [(k, g)] :=
    (List.dropLast_append_getLast? (k, g) (by rw [he]; rfl)).symm
  by_cases hpass : skipHit (trimL f.extraction_text) = true
  · have hstep := consolidateStep_skip jobs f hpass
    refine ⟨by rw [hstep], by rw [hstep], ?_⟩
    intro _ hp
    rw [hp] at hpass
    cases hpass
  · have hpass2 : skipHit (trimL f.extraction_text) = false := by
      cases hb : skipHit (trimL f.extraction_text)
      · rfl
      · exact absurd hb hpass
    rcases hcls with hc | hc
    · have h12 := (consolidateStep_attach jobs f k g hnd he hpass2).1 hc
      refine ⟨?_, ?_, ?_⟩
      · rw [h12, List.dropLast_concat]
      · rw [h12, keysOf_append]
        conv_rhs => rw [hjobs, keysOf_append]
      · intro hd _
        exfalso
        rw [hc] at hd
        exact absurd hd (by decide)
    · have h12 := (consolidateStep_attach jobs f k g hnd he hpass2).2 hc
      refine ⟨?_, ?_, ?_⟩
      · rw [h12, List.dropLast_concat]
      · rw [h12, keysOf_append]
        conv_rhs => rw [hjobs, keysOf_append]
      · intro _ _
        simp only [h12, List.getLast?_concat, he]
        rfl

/-- C6 (amended): for every fragment sequence, a location or description
fragment is attached to the group of the last-inserted title key (the most
recently created distinct title): all entries except the last are unchanged,
the keys are unchanged, and a passing description fragment is appended to the
last group's description list. -/
theorem attachment_last_created (pre : List Extraction) (f : Extraction)
    (hne : pre.foldl consolidateStep [] ≠ [])
    (hcls : toLowerL f.extraction_class = str "location"
      ∨ toLowerL f.extraction_class = str "description") :
    (consolidateStep (pre.foldl consolidateStep []) f).dropLast =
      (pre.foldl consolidateStep []).dropLast
    ∧ keysOf (consolidateStep (pre.foldl consolidateStep []) f) =
      keysOf (pre.foldl consolidateStep [])
    ∧ (toLowerL f.extraction_class = str "description" →
        skipHit (trimL f.extraction_text) = false →
        (consolidateStep (pre.foldl consolidateStep []) f).getLast?.map
            (fun e => e.2.descriptions) =
          (pre.foldl consolidateStep []).getLast?.map
            (fun e => e.2.descriptions ++ [trimL f.extraction_text])) :=
  consolidateStep_last_only (pre.foldl consolidateStep []) f
    (goodState_foldl pre [] goodState_nil).1 hne hcls

/-- Witness for `attachment_last_created` at a concrete fragment sequence. -/
theorem attachment_last_created_witness :
    (consolidateStep ([⟨str "title", str "Dev"⟩].foldl consolidateStep [])
        ⟨str "description", str "Builds large systems"⟩).dropLast =
      ([⟨str "title", str "Dev"⟩].foldl consolidateStep []).dropLast
    ∧ keysOf (consolidateStep ([⟨str "title", str "Dev"⟩].foldl consolidateStep [])
        ⟨str "description", str "Builds large systems"⟩) =
      keysOf ([⟨str "title", str "Dev"⟩].foldl consolidateStep [])
    ∧ (toLowerL (str "description") = str "description" →
        skipHit (trimL (str "Builds large systems")) = false →
        (consolidateStep ([⟨str "title", str "Dev"⟩].foldl consolidateStep [])
          ⟨str "description", str "Builds large systems"⟩).getLast?.map
            (fun e => e.2.descriptions) =
          ([⟨str "title", str "Dev"⟩].foldl consolidateStep []).getLast?.map
            (fun e => e.2.descriptions ++ [trimL (str "Builds large systems")])) :=
  attachment_last_created [⟨str "title", str "Dev"⟩]
    ⟨str "description", str "Builds large systems"⟩
    (by decide) (Or.inr (by decide))

/-- C8: every fragment (of any class) whose text contains one of the fixed
denylist terms case-insensitively is skipped entirely at ingestion and
contributes nothing to the output; in particular a title fragment
"Web Design Services" never appears as a posting title. -/
theorem denylist_skip (pre post : List Extraction) (f : Extraction)
    (hhit : skipHit (trimL f.extraction_text) = true) :
    consolidate_jobs (pre ++ f :: post) = consolidate_jobs (pre ++ post)
    ∧ ∀ (frags : List Extraction) (p : Posting),
        p ∈ consolidate_jobs frags → p.title ≠ str "Web Design Services" := by
  constructor
  · unfold consolidate_jobs
    rw [List.foldl_append, List.foldl_append, List.foldl_cons,
      consolidateStep_skip _ f hhit]
  · intro frags p hp
    unfold consolidate_jobs at hp
    rcases List.mem_map.1 hp with ⟨e, he, rfl⟩
    have hg := (goodState_foldl frags [] goodState_nil).2 e he
    intro hteq
    have hteq2 : e.2.title = str "Web Design Services" := hteq
    have hfalse : skipHit (str "Web Design Services") = false := by
      rw [← hteq2]; exact hg.2
    have htrue : skipHit (str "Web Design Services") = true := by decide
    rw [htrue] at hfalse
    cases hfalse

/-- Witness for `denylist_skip` at a concrete fragment sequence. -/
theorem denylist_skip_witness :
    consolidate_jobs
      [⟨str "title", str "Software Engineer"⟩,
       ⟨str "title", str "Web Design Services"⟩,
       ⟨str "description", str "Builds distributed systems"⟩] =
    consolidate_jobs
      [⟨str "title", str "Software Engineer"⟩,
       ⟨str "description", str "Builds distributed systems"⟩] :=
  (denylist_skip [⟨str "title", str "Software Engineer"⟩]
    [⟨str "description", str "Builds distributed systems"⟩]
    ⟨str "title", str "Web Design Services"⟩ (by decide)).1

/-- C9: on well-typed input the core never fails: segmenting the empty string
yields no sections, consolidating no fragments yields no postings, a fragment
with an unknown class is a no-op, and an orphaned location or description
fragment (no group yet) is silently dropped. -/
theorem wellformed_totality :
    extract_job_sections [] = []
    ∧ consolidate_jobs [] = []
    ∧ (∀ (jobs : JState) (f : Extraction),
        toLowerL f.extraction_class ≠ str "title" →
        toLowerL f.extraction_class ≠ str "location" →
        toLowerL f.extraction_class ≠ str "description" →
        consolidateStep jobs f = jobs)
    ∧ (∀ f : Extraction,
        toLowerL f.extraction_class = str "location"
          ∨ toLowerL f.extraction_class = str "description" →
        consolidateStep [] f = []) := by
  refine ⟨by decide, rfl, ?_, ?_⟩
  · intro jobs f h1 h2 h3
    unfold consolidateStep
    by_cases hs : skipHit (trimL f.extraction_text) = true
    · rw [if_pos hs]
    · rw [if_neg hs, if_neg h1, if_neg h2, if_neg h3]
  · intro f hcls
    unfold consolidateStep
    by_cases hs : skipHit (trimL f.extraction_text) = true
    · rw [if_pos hs]
    · rw [if_neg hs]
      rcases hcls with h | h
      · have hnt : toLowerL f.extraction_class ≠ str "title" := by rw [h]; decide
        rw [if_neg hnt, if_pos h]
        rfl
      · have hnt : toLowerL f.extraction_class ≠ str "title" := by rw [h]; decide
        have hnl : toLowerL f.extraction_class ≠ str "location" := by rw [h]; decide
        rw [if_neg hnt, if_neg hnl, if_pos h]
        rfl

/-- Witness for `wellformed_totality` at concrete states and fragments. -/
theorem wellformed_totality_witness :
    consolidateStep [(str "dev", ⟨str "Dev", [], []⟩)] ⟨str "metadata", str "noise"⟩ =
      [(str "dev", ⟨str "Dev", [], []⟩)]
    ∧ consolidateStep [] ⟨str "location", str "Lahore"⟩ = [] :=
  ⟨wellformed_totality.2.2.1 [(str "dev", ⟨str "Dev", [], []⟩)]
      ⟨str "metadata", str "noise"⟩ (by decide) (by decide) (by decide),
   wellformed_totality.2.2.2 ⟨str "location", str "Lahore"⟩ (Or.inl (by decide))⟩

/-! ## The final filter of `main` -/

theorem filter_jobs_foldl (jobs : List Posting) :
    ∀ acc : List Posting,
      jobs.foldl
        (fun filtered job =>
          if job_title_keywords.any (fun kw => containsSub kw (toLowerL job.title)) then
            if 50 < job.description.length then filtered ++ [job] else filtered
          else filtered) acc =
      acc ++ jobs.filter (fun job =>
        job_title_keywords.any (fun kw => containsSub kw (toLowerL job.title))
          && decide (50 < job.description.length)) := by
  induction jobs with
  | nil => intro acc; simp
  | cons j rest ih =>
    intro acc
    simp only [List.foldl_cons, List.filter_cons]
    by_cases h1 : job_title_keywords.any (fun kw => containsSub kw (toLowerL j.title)) = true
    · by_cases h2 : 50 < j.description.length
      · rw [if_pos h1, if_pos h2, ih]
        simp [h1, h2, List.append_assoc]
      · rw [if_pos h1, if_neg h2, ih]
        simp [h1, h2]
    · rw [if_neg h1, ih]
      simp [h1]

/-- C4: the filter keeps a posting iff its lowercased title contains at least
one term of the fixed role-keyword list and its description's character count
is strictly greater than 50 (50 is excluded, 51 is included); survivors keep
the input's relative order and are unmodified. -/
theorem filter_keeps_iff (jobs : List Posting) :
    (filter_jobs jobs).Sublist jobs
    ∧ (∀ p : Posting, p ∈ filter_jobs jobs ↔
        p ∈ jobs
          ∧ (∃ kw ∈ job_title_keywords, containsSub kw (toLowerL p.title) = true)
          ∧ 50 < p.description.length)
    ∧ filter_jobs [⟨str "Software Engineer", str "None", List.replicate 50 'a'⟩] = []
    ∧ filter_jobs [⟨str "Software Engineer", str "None", List.replicate 51 'a'⟩] =
        [⟨str "Software Engineer", str "None", List.replicate 51 'a'⟩]
    ∧ filter_jobs [⟨str "Office Cleaner", str "None", List.replicate 200 'a'⟩] = [] := by
  have hform : filter_jobs jobs = jobs.filter (fun job =>
      job_title_keywords.any (fun kw => containsSub kw (toLowerL job.title))
        && decide (50 < job.description.length)) := by
    unfold filter_jobs
    rw [filter_jobs_foldl]
    rfl
  refine ⟨?_, ?_, by decide, by decide, by decide⟩
  · rw [hform]; exact List.filter_sublist jobs
  · intro p
    rw [hform, List.mem_filter]
    have hbool : (job_title_keywords.any (fun kw => containsSub kw (toLowerL p.title))
        && decide (50 < p.description.length)) = true ↔
        ((∃ kw ∈ job_title_keywords, containsSub kw (toLowerL p.title) = true)
          ∧ 50 < p.description.length) := by
      simp [List.any_eq_true]
    rw [hbool]

/-! ## The segmenter's start-line discipline -/

/-- C5: a trimmed non-blank line starts a section iff it contains a keyword of
pattern group A or group B (case-insensitively); the requirement and location
pattern groups present in the source never cause a split; and a section-start
line flushes the accumulator only when the accumulator is non-empty. -/
theorem section_start_characterisation :
    (∀ line : List Char, is_job_start line = true ↔
        ((∃ kw ∈ patGroupA, containsSub kw (toLowerL line) = true)
          ∨ (∃ kw ∈ patGroupB, containsSub kw (toLowerL line) = true)))
    ∧ patSearch patGroupC (str "Requirements: 3 years experience") = true
    ∧ is_job_start (str "Requirements: 3 years experience") = false
    ∧ patSearch patGroupD (str "Karachi office") = true
    ∧ is_job_start (str "Karachi office") = false
    ∧ (∀ (sections current : List (List Char)) (rawLine : List Char),
        trimL rawLine ≠ [] →
        (is_job_start (trimL rawLine) = true → current ≠ [] →
          segStep (sections, current) rawLine =
            (sections ++ [joinSep (str "\n") current], [trimL rawLine]))
        ∧ ((is_job_start (trimL rawLine) = false ∨ current = []) →
          segStep (sections, current) rawLine = (sections, current ++ [trimL rawLine]))) := by
  refine ⟨?_, by decide, by decide, by decide, by decide, ?_⟩
  · intro line
    show ((List.take 2 job_patterns).any fun pat => patSearch pat line) = true ↔ _
    have htake : List.take 2 job_patterns = [patGroupA, patGroupB] := rfl
    rw [htake]
    simp [patSearch, List.any_eq_true]
  · intro sections current rawLine hline
    constructor
    · intro hstart hcur
      show (if trimL rawLine = [] then (sections, current)
        else if is_job_start (trimL rawLine) && !current.isEmpty then
          (sections ++ [joinSep (str "\n") current], [trimL rawLine])
        else (sections, current ++ [trimL rawLine])) = _
      rw [if_neg hline]
      have hcond : (is_job_start (trimL rawLine) && !current.isEmpty) = true := by
        rw [hstart]
        simp [List.isEmpty_iff, hcur]
      rw [if_pos hcond]
    · intro hor
      show (if trimL rawLine = [] then (sections, current)
        else if is_job_start (trimL rawLine) && !current.isEmpty then
          (sections ++ [joinSep (str "\n") current], [trimL rawLine])
        else (sections, current ++ [trimL rawLine])) = _
      rw [if_neg hline]
      have hcond : ¬((is_job_start (trimL rawLine) && !current.isEmpty) = true) := by
        rcases hor with h | h
        · rw [h]; simp
        · rw [h]; simp
      rw [if_neg hcond]

/-- Witness for `section_start_characterisation` at concrete lines. -/
theorem section_start_characterisation_witness :
    segStep ([], [str "Intro line"]) (str "Software Developer wanted") =
      ([joinSep (str "\n") [str "Intro line"]], [trimL (str "Software Developer wanted")])
    ∧ segStep ([], []) (str "Requirements: 3 years experience") =
      ([], [] ++ [trimL (str "Requirements: 3 years experience")]) :=
  ⟨(section_start_characterisation.2.2.2.2.2 [] [str "Intro line"]
      (str "Software Developer wanted") (by decide)).1 (by decide) (by decide),
   (section_start_characterisation.2.2.2.2.2 [] []
      (str "Requirements: 3 years experience") (by decide)).2 (Or.inr rfl)⟩

/-! ## Concrete consolidation runs -/

/-- C6 counterexample: with titles "A", "B", "a" and then a location, the
location is attached to the group of the last-inserted key "b", not to the
group of the most recently seen title fragment "a" (which belongs to "A"). -/
theorem positional_attachment_cex :
    consolidate_jobs
      [⟨str "title", str "A"⟩, ⟨str "title", str "B"⟩, ⟨str "title", str "a"⟩,
       ⟨str "location", str "Lahore"⟩] =
      [⟨str "A", str "None", []⟩, ⟨str "B", str "Lahore", []⟩]
    ∧ (consolidate_jobs
        [⟨str "title", str "A"⟩, ⟨str "title", str "B"⟩, ⟨str "title", str "a"⟩,
         ⟨str "location", str "Lahore"⟩]).map (fun p => p.location) ≠
      [str "Lahore", str "None"] := by
  refine ⟨by decide, by decide⟩

/-- C7 counterexample: on [title "Dev", location "Lahore", title "dev ",
description "X."] the merged description is empty (the sentence "X" has length
1 which is at most 10, so it is discarded), hence it does not contain "X.". -/
theorem single_group_dev_cex :
    ¬((consolidate_jobs
        [⟨str "title", str "Dev"⟩, ⟨str "location", str "Lahore"⟩,
         ⟨str "title", str "dev "⟩, ⟨str "description", str "X."⟩]).length = 1
      ∧ ((consolidate_jobs
        [⟨str "title", str "Dev"⟩, ⟨str "location", str "Lahore"⟩,
         ⟨str "title", str "dev "⟩, ⟨str "description", str "X."⟩]).headD
          ⟨[], [], []⟩).location = str "Lahore"
      ∧ containsSub (str "X.")
          (((consolidate_jobs
            [⟨str "title", str "Dev"⟩, ⟨str "location", str "Lahore"⟩,
             ⟨str "title", str "dev "⟩, ⟨str "description", str "X."⟩]).headD
              ⟨[], [], []⟩).description) = true) := by
  decide

/-- C7 (amended): on [title "Dev", location "Lahore", title "dev ",
description "X."] consolidation produces exactly one posting, with location
"Lahore" and an empty merged description (the only sentence fragment "X" is
discarded by the length-greater-than-10 noise threshold). -/
theorem single_group_dev :
    consolidate_jobs
      [⟨str "title", str "Dev"⟩, ⟨str "location", str "Lahore"⟩,
       ⟨str "title", str "dev "⟩, ⟨str "description", str "X."⟩] =
      [⟨str "Dev", str "Lahore", []⟩] := by
  decide

/-! ## Title grouping -/

theorem filter_key_eq :
    ∀ (jobs : JState) (k : List Char),
      (keysOf jobs).Nodup → k ∈ keysOf jobs →
      ∃ g, dictGet jobs k = some g ∧ jobs.filter (fun e => e.1 == k) = [(k, g)] := by
  intro jobs
  induction jobs with
  | nil => intro k _ hk; simp [keysOf] at hk
  | cons e rest ih =>
    intro k hnd hk
    have hnd2 : (e.1 :: keysOf rest).Nodup := hnd
    by_cases hc : (e.1 == k) = true
    · have hek : e.1 = k := beq_iff_eq.1 hc
      have hknrest : k ∉ keysOf rest := by
        have h1 := (List.nodup_cons.1 hnd2).1
        rw [hek] at h1
        exact h1
      refine ⟨e.2, ?_, ?_⟩
      · unfold dictGet
        rw [List.find?_cons_of_pos (p := fun e : List Char × JobGroup => e.1 == k) rest hc]
        rfl
      · rw [List.filter_cons, if_pos hc]
        have hrest : rest.filter (fun e => e.1 == k) = [] := by
          rw [List.filter_eq_nil_iff]
          intro x hx hpx
          exact hknrest (List.mem_map.2 ⟨x, hx, beq_iff_eq.1 hpx⟩)
        rw [hrest]
        have he : e = (k, e.2) := by rw [← hek]
        rw [← he]
    · have hkrest : k ∈ keysOf rest := by
        rcases List.mem_cons.1 hk with h1 | h1
        · exact absurd (beq_iff_eq.2 h1.symm) hc
        · exact h1
      rcases ih k (List.nodup_cons.1 hnd2).2 hkrest with ⟨g, hg1, hg2⟩
      refine ⟨g, ?_, ?_⟩
      · unfold dictGet
        rw [List.find?_cons_of_neg (p := fun e : List Char × JobGroup => e.1 == k) rest hc]
        exact hg1
      · rw [List.filter_cons, if_neg hc]
        exact hg2

theorem countP_key_eq_one :
    ∀ (jobs : JState) (k : List Char),
      (keysOf jobs).Nodup → k ∈ keysOf jobs →
      List.countP (fun e : List Char × JobGroup => e.1 == k) jobs = 1 := by
  intro jobs
  induction jobs with
  | nil => intro k _ hk; simp [keysOf] at hk
  | cons e rest ih =>
    intro k hnd hk
    have hnd2 : (e.1 :: keysOf rest).Nodup := hnd
    rw [List.countP_cons]
    by_cases hc : (e.1 == k) = true
    · have hek : e.1 = k := beq_iff_eq.1 hc
      have hkn : k ∉ keysOf rest := by
        have h1 := (List.nodup_cons.1 hnd2).1
        rw [hek] at h1
        exact h1
      have hz : List.countP (fun e : List Char × JobGroup => e.1 == k) rest = 0 := by
        rw [List.countP_eq_zero]
        intro x hx hpx
        exact hkn (List.mem_map.2 ⟨x, hx, beq_iff_eq.1 hpx⟩)
      rw [hz]
      simp [hc]
    · have hkrest : k ∈ keysOf rest := by
        rcases List.mem_cons.1 hk with h1 | h1
        · exact absurd (beq_iff_eq.2 h1.symm) hc
        · exact h1
      rw [ih k (List.nodup_cons.1 hnd2).2 hkrest]
      simp [hc]

/-- C2 counterexample to the claim as stated: two title fragments with equal
lowercased-and-trimmed texts that hit the denylist map to zero postings, not
one; and the recorded title is the trimmed text, not the raw original text of
the first fragment. -/
theorem title_grouping_cex :
    consolidate_jobs [⟨str "title", str "Figma"⟩, ⟨str "title", str "figma"⟩] = []
    ∧ (consolidate_jobs [⟨str "title", str " Dev "⟩, ⟨str "title", str "dev"⟩]).map
        (fun p => p.title) = [str "Dev"]
    ∧ str "Dev" ≠ str " Dev " := by
  refine ⟨by decide, by decide, by decide⟩

/-- C2 (amended): for title fragments that pass the denylist, grouping is by
case-insensitive whitespace-trimmed equality: a later title fragment whose
normalized key was already inserted is a no-op, exactly one posting carries
that normalized key, and when the fragment is the first with its key the
posting's title is the fragment's whitespace-trimmed original-casing text. -/
theorem title_grouping (pre post : List Extraction) (t : Extraction)
    (hcls : toLowerL t.extraction_class = str "title")
    (hpass : skipHit (trimL t.extraction_text) = false) :
    (trimL (toLowerL (trimL t.extraction_text)) ∈ keysOf (pre.foldl consolidateStep []) →
        consolidate_jobs (pre ++ t :: post) = consolidate_jobs (pre ++ post))
    ∧ (consolidate_jobs (pre ++ t :: post)).countP
        (fun p => trimL (toLowerL p.title) == trimL (toLowerL (trimL t.extraction_text))) = 1
    ∧ (trimL (toLowerL (trimL t.extraction_text)) ∉ keysOf (pre.foldl consolidateStep []) →
        ((consolidate_jobs (pre ++ t :: post)).filter
            (fun p => trimL (toLowerL p.title) ==
              trimL (toLowerL (trimL t.extraction_text)))).map (fun p => p.title) =
          [trimL t.extraction_text]) := by
  have hsk : ¬(skipHit (trimL t.extraction_text) = true) := by
    rw [hpass]; exact Bool.false_ne_true
  set k := trimL (toLowerL (trimL t.extraction_text)) with hkdef
  have htb : ∀ jobs : JState, consolidateStep jobs t =
      if dictHasKey jobs k then jobs
      else jobs ++ [(k, ⟨trimL t.extraction_text, [], []⟩)] := by
    intro jobs
    unfold consolidateStep
    rw [if_neg hsk, if_pos hcls]
  set S0 := pre.foldl consolidateStep [] with hS0
  have hg0 : goodState S0 := goodState_foldl pre [] goodState_nil
  set S1 := consolidateStep S0 t with hS1def
  have hfold : (pre ++ t :: post).foldl consolidateStep [] = post.foldl consolidateStep S1 := by
    rw [List.foldl_append, List.foldl_cons]
  have hkS1 : k ∈ keysOf S1 := by
    rw [hS1def, htb S0]
    by_cases hk : dictHasKey S0 k = true
    · rw [if_pos hk]; exact (dictHasKey_iff S0 k).1 hk
    · rw [if_neg hk, keysOf_append]
      exact List.mem_append_right _ (List.mem_singleton_self k)
  have hg1 : goodState S1 := goodState_step S0 t hg0
  set Sfin := post.foldl consolidateStep S1 with hSfin
  have hgfin : goodState Sfin := goodState_foldl post S1 hg1
  have hkfin : k ∈ keysOf Sfin := mem_keys_foldl post S1 k hkS1
  refine ⟨?_, ?_, ?_⟩
  · intro hk
    unfold consolidate_jobs
    rw [List.foldl_append, List.foldl_append, List.foldl_cons, htb,
      if_pos ((dictHasKey_iff S0 k).2 hk)]
  · unfold consolidate_jobs
    rw [hfold, List.countP_map]
    have hcongr : List.countP
        ((fun p : Posting => trimL (toLowerL p.title) == k) ∘
          (fun e : List Char × JobGroup => consolidateGroup e.2)) Sfin =
        List.countP (fun e : List Char × JobGroup => e.1 == k) Sfin := by
      apply List.countP_congr
      intro e he
      have hinv := hgfin.2 e he
      show (trimL (toLowerL (consolidateGroup e.2).title) == k) = true ↔ (e.1 == k) = true
      have hti : (consolidateGroup e.2).title = e.2.title := rfl
      rw [hti, hinv.1]
    rw [hcongr]
    exact countP_key_eq_one Sfin k hgfin.1 hkfin
  · intro hknotin
    have hS1eq : S1 = S0 ++ [(k, ⟨trimL t.extraction_text, [], []⟩)] := by
      rw [hS1def, htb S0,
        if_neg (fun hk => hknotin ((dictHasKey_iff S0 k).1 hk))]
    have htA : titleAt S1 k = some (trimL t.extraction_text) := by
      unfold titleAt dictGet
      rw [hS1eq, List.find?_append]
      have hnone : S0.find? (fun e => e.1 == k) = none :=
        List.find?_eq_none.2
          (fun e he hp => hknotin (List.mem_map.2 ⟨e, he, beq_iff_eq.1 hp⟩))
      rw [hnone, Option.none_or,
        List.find?_cons_of_pos (p := fun e : List Char × JobGroup => e.1 == k) []
          (beq_self_eq_true k)]
      rfl
    have htfin : titleAt Sfin k = some (trimL t.extraction_text) := by
      rw [hSfin, titleAt_foldl post S1 k hkS1]
      exact htA
    unfold consolidate_jobs
    rw [hfold, List.filter_map, List.map_map]
    have hfc : Sfin.filter
        ((fun p : Posting => trimL (toLowerL p.title) == k) ∘
          (fun e : List Char × JobGroup => consolidateGroup e.2)) =
        Sfin.filter (fun e => e.1 == k) := by
      apply List.filter_congr
      intro e he
      have hinv := hgfin.2 e he
      show (trimL (toLowerL (consolidateGroup e.2).title) == k) = (e.1 == k)
      have hti : (consolidateGroup e.2).title = e.2.title := rfl
      rw [hti, hinv.1]
    rw [hfc]
    rcases filter_key_eq Sfin k hgfin.1 hkfin with ⟨g, hg1, hg2⟩
    rw [hg2]
    have hgt : g.title = trimL t.extraction_text := by
      have h2 : titleAt Sfin k = some g.title := by
        unfold titleAt
        rw [hg1]
        rfl
      exact Option.some.inj (h2.symm.trans htfin)
    show [((fun p : Posting => p.title) ∘
      (fun e : List Char × JobGroup => consolidateGroup e.2)) (k, g)] = _
    show [(consolidateGroup g).title] = [trimL t.extraction_text]
    rw [show (consolidateGroup g).title = g.title from rfl, hgt]

/-- Witness for `title_grouping` at concrete fragment sequences. -/
theorem title_grouping_witness :
    (consolidate_jobs ([] ++ ⟨str "title", str "Dev"⟩ :: [])).countP
      (fun p => trimL (toLowerL p.title) ==
        trimL (toLowerL (trimL (str "Dev")))) = 1
    ∧ ((consolidate_jobs ([] ++ ⟨str "title", str "Dev"⟩ :: [])).filter
        (fun p => trimL (toLowerL p.title) ==
          trimL (toLowerL (trimL (str "Dev"))))).map (fun p => p.title) =
      [trimL (str "Dev")]
    ∧ consolidate_jobs ([⟨str "title", str "Dev"⟩] ++ ⟨str "title", str "dev"⟩ :: []) =
        consolidate_jobs ([⟨str "title", str "Dev"⟩] ++ []) :=
  ⟨(title_grouping [] [] ⟨str "title", str "Dev"⟩ (by decide) (by decide)).2.1,
   (title_grouping [] [] ⟨str "title", str "Dev"⟩ (by decide) (by decide)).2.2 (by decide),
   (title_grouping [⟨str "title", str "Dev"⟩] [] ⟨str "title", str "dev"⟩
      (by decide) (by decide)).1 (by decide)⟩

example : str "ab" = ['a', 'b'] := rfl
example : toLowerL (str "AbC") = str "abc" := by decide
example : trimL (str "  dev ") = str "dev" := by decide
example : splitTermRuns (str "a.b!?c") = [str "a", str "b", str "c"] := by decide
example : splitTermRuns (str "X.") = [str "X", []] := by decide
example : splitNl (str "a\n\nb") = [str "a", [], str "b"] := by decide
example : extract_job_sections [] = [] := by decide
example : consolidate_jobs [] = [] := rfl
example :
    consolidate_jobs
      [⟨str "title", str "Dev"⟩, ⟨str "location", str "Lahore"⟩,
       ⟨str "title", str "dev "⟩, ⟨str "description", str "X."⟩] =
      [⟨str "Dev", str "Lahore", []⟩] := by decide
example :
    consolidate_jobs
      [⟨str "title", str "A"⟩, ⟨str "title", str "B"⟩, ⟨str "title", str "a"⟩,
       ⟨str "location", str "Lahore"⟩] =
      [⟨str "A", str "None", []⟩, ⟨str "B", str "Lahore", []⟩] := by decide

end JobsPy
